import Mathlib

/-!
A shallow embedding of the dependency-graph tool in src/showdeps.go.

Modelling conventions:
* A Go package descriptor returned by build.Default.Import becomes `Pkg`;
  the resolver boundary (go/build) becomes `Resolver : String → Option Pkg`
  (`none` models a resolution failure).
* The Go map `map[string][]string` (allPkgs) becomes an association list
  `Graph` with at most one entry per key; reading an absent key yields `[]`
  just as a Go map read yields a nil slice.  A key whose value is `[]`
  models a key holding a nil slice (which is how the entry created by
  line `allPkgs[pkg.ImportPath] = allPkgs[pkg.ImportPath]` looks in Go).
* The command-line flag globals become an explicit `Flags` record threaded
  through the functions.
* Go map iteration order is unspecified; the model iterates the effective
  set of a package in first-insertion order, and iterates graph keys in
  entry order.  All verified statements are insensitive to this choice.
* The mutual recursion of findImports with its inner for-loop is made
  total with a fuel parameter (structural recursion on the fuel); fuel
  exhaustion is an artificial error that a sufficiently large fuel never
  reaches.  Likewise for markImporters.
-/

/-- Descriptor of a Go package as returned by go/build (§ModuleDescriptor). -/
structure Pkg where
  importPath : String
  dir : String
  imports : List String
  testImports : List String
  xtestImports : List String
  goFiles : List String
  cgoFiles : List String
  testGoFiles : List String
  xtestGoFiles : List String
deriving DecidableEq

/-- The command-line flag globals of showdeps.go (lines 19-26).
`whyPat = some w` models a non-empty -why argument. -/
structure Flags where
  noTestDeps : Bool
  all : Bool
  std : Bool
  fromFlag : Bool
  whyPat : Option String
  files : Bool
deriving DecidableEq

/-- The go/build resolution boundary: `none` is a resolution failure. -/
abbrev Resolver : Type := String → Option Pkg

/-- The reverse-adjacency map `allPkgs : map[string][]string`:
key = package import path, value = list of importers recorded so far. -/
abbrev Graph : Type := List (String × List String)

/-- Go map read: value of the key, or the nil slice (= `[]`) when absent. -/
def lookupG : Graph → String → List String
  | [], _ => []
  | (k, v) :: rest, key => if k = key then v else lookupG rest key

/-- Go map write: replace the value of an existing key, else add the key. -/
def setG : Graph → String → List String → Graph
  | [], key, v => [(key, v)]
  | (k, w) :: rest, key, v =>
    if k = key then (k, v) :: rest else (k, w) :: setG rest key v

/-- The key set of the map (what `for name := range allPkgs` ranges over). -/
def keysOf (g : Graph) : List String := g.map Prod.fst

/-- Every importer recorded anywhere in the graph is itself a key.
This holds for graphs produced by findImports before root deletion. -/
def ClosedG (g : Graph) : Bool :=
  g.all fun kv => kv.2.all fun b => (keysOf g).contains b

/-- isStdlib (line 182): the first path segment contains no dot.
strings.SplitN(pkg, "/", 2)[0] is the prefix of the path before the
first '/' (the whole path when there is no '/'). -/
def isStdlib (pkg : String) : Bool :=
  !((pkg.data.takeWhile fun c => c ≠ '/').contains '.')

/-- Set-insert into the insertion-ordered model of a `map[string]bool`. -/
def insertSet (m : List String) (s : String) : List String :=
  if m.contains s then m else m ++ [s]

/-- addPackages (lines 222-228): add each path that passes the stdlib
gate (`*std || !isStdlib(s)`) to the set. -/
def addPackages (fl : Flags) (m : List String) (ss : List String) : List String :=
  ss.foldl (fun m s => if fl.std || !isStdlib s then insertSet m s else m) m

/-- imports (lines 212-220): the effective import set of a package —
its direct imports, plus its test and external-test imports exactly when
it is a root package and -T was not given.  (Named importsOf here; the
source calls it imports.) -/
def importsOf (fl : Flags) (pkg : Pkg) (isRoot : Bool) : List String :=
  let imps := addPackages fl [] pkg.imports
  if isRoot && !fl.noTestDeps then
    addPackages fl (addPackages fl imps pkg.testImports) pkg.xtestImports
  else imps

/-- uniq (lines 157-168): keep each element that differs from the last
kept element; `prev` starts as the empty string. -/
def uniqAux : List String → String → List String
  | [], _ => []
  | s :: rest, prev => if s = prev then uniqAux rest prev else s :: uniqAux rest s

/-- uniq as called in main (line 143): full deduplication of a sorted list. -/
def uniq (ss : List String) : List String := uniqAux ss ""

/-- Lexicographic comparison of character lists by code point; for valid
UTF-8 this is the same order as Go's bytewise string comparison. -/
def charsLe : List Char → List Char → Bool
  | [], _ => true
  | _ :: _, [] => false
  | a :: as, b :: bs =>
    if a.toNat < b.toNat then true
    else if a.toNat = b.toNat then charsLe as bs
    else false

/-- The string order used by sort.Strings. -/
def strLe (a b : String) : Bool := charsLe a.data b.data

/-- strLe as a proposition. -/
def StrLe (a b : String) : Prop := strLe a b = true

instance : DecidableRel StrLe := fun a b => by unfold StrLe; infer_instance

/-- sort.Strings: sort a string list ascending. -/
def sortStrings (l : List String) : List String := List.insertionSort StrLe l

/-- The error text of findImports line 194 / main line 89: the message
always carries the offending package path. -/
def notFoundMsg (packageName : String) : String :=
  "cannot find \"" ++ packageName ++ "\""

/-- The body of the `for name := range imports(...)` loop of findImports
(lines 197-208).  `rec` is the recursive call available to the loop;
`curPath` is pkg.ImportPath of the package being processed.  The source
test `alreadyDone := allPkgs[name] != nil` appears here with the double
negation folded away: the recursion guard `*all && !alreadyDone` is
`fl.all && (lookupG g name).isEmpty`, and the importer append happens on
both sides of it, as in the source. -/
def importStep (fl : Flags) (rec : String → Graph → Except String Graph)
    (curPath : String) (g : Graph) (name : String) : Except String Graph :=
  if !fl.std && isStdlib name then Except.ok g
  else
    if fl.all && (lookupG g name).isEmpty then
      rec name (setG g name (lookupG g name ++ [curPath]))
    else Except.ok (setG g name (lookupG g name ++ [curPath]))

/-- The `for name := range imports(...)` loop itself: run importStep on
each name, stopping at the first error (the `return err` of line 205). -/
def loopImports (fl : Flags) (rec : String → Graph → Except String Graph)
    (curPath : String) : List String → Graph → Except String Graph
  | [], g => Except.ok g
  | name :: rest, g =>
    match importStep fl rec curPath g name with
    | Except.error e => Except.error e
    | Except.ok g' => loopImports fl rec curPath rest g'

/-- findImports (lines 188-210).  "C" is returned without resolution;
a failed resolution is a fatal error carrying the path; otherwise the
package is given an entry (line 196) and its effective import set is
looped over. -/
def findImports (env : Resolver) (fl : Flags) (rootPkgs : List String) :
    Nat → String → Graph → Except String Graph
  | 0, _, _ => Except.error "internal: fuel exhausted"
  | fuel + 1, packageName, allPkgs =>
    if packageName = "C" then Except.ok allPkgs
    else
      match env packageName with
      | none => Except.error (notFoundMsg packageName)
      | some pkg =>
        let g := setG allPkgs pkg.importPath (lookupG allPkgs pkg.importPath)
        loopImports fl (findImports env fl rootPkgs fuel) pkg.importPath
          (importsOf fl pkg (rootPkgs.contains pkg.importPath)) g

/-- The build loop of main (lines 95-99): fold findImports over the
expanded command-line packages, aborting on the first error. -/
def buildGraph (env : Resolver) (fl : Flags) (rootPkgs : List String)
    (fuel : Nat) (pkgs : List String) : Except String Graph :=
  pkgs.foldlM (fun g pkg => findImports env fl rootPkgs fuel pkg g) []

/-- Root resolution of main (lines 86-92): resolve each argument with
build.FindOnly and collect the set of resolved import paths, aborting
on the first failure. -/
def resolveRoots (env : Resolver) : List String → Except String (List String)
  | [] => Except.ok []
  | pkg :: rest =>
    match env pkg with
    | none => Except.error (notFoundMsg pkg)
    | some p =>
      match resolveRoots env rest with
      | Except.error e => Except.error e
      | Except.ok acc => Except.ok (insertSet acc p.importPath)

/-- The DFS fold over a list of start vertices used by markImporters. -/
def markLoop (rec : String → Finset String → Finset String) :
    List String → Finset String → Finset String
  | [], m => m
  | q :: l, m => markLoop rec l (rec q m)

/-- markImporters (lines 170-180): mark `pkg`, then recursively mark
every importer recorded under it, skipping already-marked paths. -/
def markImporters (g : Graph) : Nat → String → Finset String → Finset String
  | 0, _, marked => marked
  | fuel + 1, pkg, marked =>
    if pkg ∈ marked then marked
    else markLoop (markImporters g fuel) (lookupG g pkg) (insert pkg marked)

/-- Every path occurring in the graph, as key or as recorded importer.
Its cardinality bounds the number of paths markImporters can visit. -/
def universeOf : Graph → Finset String
  | [] => ∅
  | (k, vs) :: rest => insert k (vs.foldr insert (universeOf rest))

/-- The seed loop of main (lines 107-112): run markImporters from every
key matching the target predicate, accumulating one marked set. -/
def markAll (g : Graph) (isTarget : String → Bool) : Finset String :=
  (keysOf g).foldl
    (fun marked pkg =>
      if isTarget pkg then markImporters g ((universeOf g).card + 1) pkg marked
      else marked)
    ∅

/-- The filter of main (lines 113-117): delete every key that is not
marked. -/
def whyFilter (g : Graph) (isTarget : String → Bool) : Graph :=
  g.filter fun kv => decide (kv.1 ∈ markAll g isTarget)

/-- Root deletion of main (lines 102-104). -/
def deleteRoots (g : Graph) (rootPkgs : List String) : Graph :=
  g.filter fun kv => !(rootPkgs.contains kv.1)

/-- The pattern tokens of the compiled regular expression of
matchPattern (lines 235-246): after regexp.QuoteMeta every character of
the pattern matches itself literally, and each replaced `\.\.\.` (that
is, each "..." of the pattern, taken left to right without overlap)
becomes the wildcard `.*`. -/
inductive Tok where
  | lit (c : Char)
  | anyStar
deriving DecidableEq

/-- Decompose the pattern into regex tokens: a leftmost-first scan in
which every run "..." becomes a wildcard and any other character stays
literal.  This is exactly what QuoteMeta followed by
strings.Replace(re, quoted-dots, ".*", -1) produces, because `\.`
arises in the quoted pattern only from a literal '.'. -/
def tokenize : List Char → List Tok
  | '.' :: '.' :: '.' :: rest => .anyStar :: tokenize rest
  | c :: rest => .lit c :: tokenize rest
  | [] => []

/-- Matching of `.*` : try the rest of the regex at every suffix. -/
def starLoop (rec : List Char → Bool) : List Char → Bool
  | [] => rec []
  | c :: cs => rec (c :: cs) || starLoop rec cs

/-- Anchored matching of a token list against a string (the `^re$`
regexp of line 242). -/
def tokMatch : List Tok → List Char → Bool
  | [], s => s.isEmpty
  | .lit _ :: _, [] => false
  | .lit c :: ts, d :: ds => c == d && tokMatch ts ds
  | .anyStar :: ts, s => starLoop (tokMatch ts) s

/-- The special-case test of line 239: the compiled regex ends in `/.*`.
Since '/' is never produced by an escape and `.*` only by a wildcard,
this is exactly: the token list ends with a literal '/' followed by a
wildcard. -/
def endsWithSlashStar (ts : List Tok) : Bool :=
  match ts.reverse with
  | .anyStar :: .lit '/' :: _ => true
  | _ => false

/-- matchPattern (lines 235-246): anchored glob match in which "..."
matches any substring; a pattern ending in "/..." additionally accepts
the name with the whole "/..." suffix removed (the `(/.*)?` rewrite of
line 240). -/
def matchPattern (pattern : String) (name : String) : Bool :=
  let ts := tokenize pattern.data
  if endsWithSlashStar ts then
    tokMatch ts.dropLast.dropLast name.data || tokMatch ts name.data
  else
    tokMatch ts name.data

/-- The language of a token list: the empty pattern matches only the
empty string, a literal consumes exactly itself, and a wildcard matches
any substring.  This is the declarative reading of the compiled regex:
anchored, literals literal, each "..." an arbitrary substring. -/
def TokLang : List Tok → List Char → Prop
  | [], s => s = []
  | .lit c :: ts, s => ∃ s', s = c :: s' ∧ TokLang ts s'
  | .anyStar :: ts, s => ∃ u v, s = u ++ v ∧ TokLang ts v

/-- The reverse-adjacency edge walked by markImporters: from a package
to each importer recorded under it (b is an importer of a). -/
def importerEdge (g : Graph) (a b : String) : Prop := b ∈ lookupG g a

/-- Reachability along importer edges avoiding a marked set: every
visited path, the start and the end included, is unmarked.  This is the
set of paths a call markImporters(t, g, marked) newly marks. -/
inductive ReachAvoid (g : Graph) (m : Finset String) : String → String → Prop
  | refl (t : String) : t ∉ m → ReachAvoid g m t t
  | tail {t p q : String} : ReachAvoid g m t p → q ∈ lookupG g p → q ∉ m →
      ReachAvoid g m t q

/-- The -why flag implications of main (lines 75-82): -why forces -a
and -from, and forces -stdlib when the -why argument is a stdlib path. -/
def applyWhy (fl : Flags) : Flags :=
  match fl.whyPat with
  | none => fl
  | some w =>
    ⟨fl.noTestDeps, true, fl.std || isStdlib w, true, some w, fl.files⟩

/-- The surviving key set of main (lines 100-127): outside files mode,
roots are deleted first and then, when -why is active, the graph is
filtered to the marked closure; the keys are emitted sorted. -/
def resultKeys (fl : Flags) (allPkgs : Graph) (rootPkgs : List String) : List String :=
  let g :=
    if fl.files then allPkgs
    else
      let g1 := deleteRoots allPkgs rootPkgs
      match fl.whyPat with
      | some w => whyFilter g1 (matchPattern w)
      | none => g1
  sortStrings (keysOf g)

/-- The pipeline order that §2 of the spec describes (for comparison
with resultKeys): AncestorMarker filtering first, root exclusion after.
Modelled from the spec: "if a target predicate is active, AncestorMarker
filters the map to its closure → root modules are excluded". -/
def specResultKeys (fl : Flags) (allPkgs : Graph) (rootPkgs : List String) : List String :=
  let g :=
    if fl.files then allPkgs
    else
      let g1 :=
        match fl.whyPat with
        | some w => whyFilter allPkgs (matchPattern w)
        | none => allPkgs
      deleteRoots g1 rootPkgs
  sortStrings (keysOf g)

/-- showFiles (lines 151-155): one line per file, directory joined with
the file name. -/
def showFiles (pkg : Pkg) (fs : List String) : List String :=
  fs.map fun f => pkg.dir ++ "/" ++ f

/-- The files-mode branch of the render loop (lines 130-139): the
resolution error of line 131 is discarded; a package that fails to
resolve has no file lists and so contributes no lines.  Test files are
added only for root packages when -T is absent. -/
def fileLines (env : Resolver) (fl : Flags) (rootPkgs : List String)
    (r : String) : List String :=
  match env r with
  | none => []
  | some pkg =>
    showFiles pkg pkg.goFiles ++ showFiles pkg pkg.cgoFiles ++
      (if rootPkgs.contains pkg.importPath && !fl.noTestDeps then
        showFiles pkg pkg.testGoFiles ++ showFiles pkg pkg.xtestGoFiles
      else [])

/-- One rendered line of -from mode (lines 140-144): the key followed by
its sorted, deduplicated importer list. -/
def fromLine (allPkgs : Graph) (r : String) : String × List String :=
  (r, uniq (sortStrings (lookupG allPkgs r)))

/-- The rendered (module, importers) pairs of -from mode. -/
def renderFrom (fl : Flags) (allPkgs : Graph) (rootPkgs : List String) :
    List (String × List String) :=
  (resultKeys fl allPkgs rootPkgs).map (fromLine allPkgs)

/-- One iteration of the render loop of main (lines 128-148): the lines
contributed by one surviving key. -/
def linesFor (env : Resolver) (fl : Flags) (allPkgs : Graph)
    (rootPkgs : List String) (r : String) : List String :=
  if fl.files then fileLines env fl rootPkgs r
  else if fl.fromFlag then
    [r ++ " " ++ String.intercalate " " (uniq (sortStrings (lookupG allPkgs r)))]
  else [r]

/-- The render loop of main (lines 128-148) as a list of output lines. -/
def renderLines (env : Resolver) (fl : Flags) (allPkgs : Graph)
    (rootPkgs : List String) : List String :=
  ((resultKeys fl allPkgs rootPkgs).map (linesFor env fl allPkgs rootPkgs)).flatten

/-- main (lines 59-149) after flag parsing and wildcard expansion:
apply the -why implications, resolve the roots, build the graph, render.
Any resolution failure aborts with its error and produces no output. -/
def mainRun (env : Resolver) (fl : Flags) (pkgs0 : List String)
    (fuel : Nat) : Except String (List String) :=
  let fl := applyWhy fl
  let pkgs := if pkgs0.isEmpty then ["."] else pkgs0
  match resolveRoots env pkgs with
  | Except.error e => Except.error e
  | Except.ok rootPkgs =>
    match buildGraph env fl rootPkgs fuel pkgs with
    | Except.error e => Except.error e
    | Except.ok allPkgs => Except.ok (renderLines env fl allPkgs rootPkgs)

def mkPkg (p : String) (imps : List String) : Pkg :=
  ⟨p, "/src/" ++ p, imps, [], [], [], [], [], []⟩

def envC : Resolver := fun s => if s = "R" then some (mkPkg "R" ["C"]) else none

def flC : Flags := ⟨false, true, true, false, none, false⟩

def env7 : Resolver := fun s =>
  if s = "R" then some (mkPkg "R" ["A"])
  else if s = "S" then some (mkPkg "S" ["R"])
  else if s = "A" then some (mkPkg "A" []) else none

example : isStdlib "C" = true := by decide
example : isStdlib "fmt" = true := by decide
example : isStdlib "github.com/kisielk/gotool" = false := by decide
example : matchPattern "foo/..." "foo" = true := by decide
example : matchPattern "foo/..." "foo/bar" = true := by decide
example : matchPattern "foo/..." "foobar" = false := by decide
example : matchPattern "a...b" "axyzb" = true := by decide
example : markImporters [("X", ["A"]), ("A", ["B"]), ("B", [])] 4 "X" ∅ =
    ({"X", "A", "B"} : Finset String) := by decide
example : markAll [("X", ["A"]), ("A", ["B"]), ("B", [])] (fun s => s == "X") =
    ({"X", "A", "B"} : Finset String) := by decide

example : buildGraph envC flC ["R"] 5 ["R"] = Except.ok [("R", []), ("C", ["R"])] := rfl

example : buildGraph env7 flC ["R", "S"] 10 ["R", "S"] =
    Except.ok [("R", ["S"]), ("A", ["R", "R"]), ("S", [])] := rfl

theorem contains_iff (l : List String) (x : String) : l.contains x = true ↔ x ∈ l := by
  simp

theorem mem_insertSet (m : List String) (s x : String) :
    x ∈ insertSet m s ↔ x ∈ m ∨ x = s := by
  unfold insertSet
  by_cases h : m.contains s = true
  · rw [if_pos h]
    have hs : s ∈ m := (contains_iff m s).mp h
    constructor
    · exact Or.inl
    · rintro (hx | rfl)
      · exact hx
      · exact hs
  · rw [if_neg h]
    simp

theorem mem_addPackages (fl : Flags) :
    ∀ (ss m : List String) (x : String),
      x ∈ addPackages fl m ss ↔
        x ∈ m ∨ (x ∈ ss ∧ (fl.std || !isStdlib x) = true) := by
  intro ss
  induction ss with
  | nil => intro m x; simp [addPackages]
  | cons s rest ih =>
    intro m x
    have hstep : addPackages fl m (s :: rest) =
        addPackages fl (if fl.std || !isStdlib s then insertSet m s else m) rest := rfl
    rw [hstep, ih]
    by_cases hx : x = s
    · subst hx
      by_cases hg : (fl.std || !isStdlib x) = true
      · simp [hg, mem_insertSet]
      · simp [hg]
    · by_cases hg : (fl.std || !isStdlib s) = true
      · simp [hg, mem_insertSet, hx]
      · simp [hg, hx]

/-- C2: a test-only import (one not among the direct imports) that passes
the stdlib gate is in the effective import set of a package if and only
if the package is a root and test dependencies are included (-T absent);
and a package processed as a non-root contributes exactly its direct
imports (filtered by the stdlib gate), so test dependencies are never
followed transitively. -/
theorem testDeps_only_for_roots :
    (∀ (fl : Flags) (pkg : Pkg) (isRoot : Bool) (t : String),
        t ∉ pkg.imports → (fl.std || !isStdlib t) = true →
        (t ∈ importsOf fl pkg isRoot ↔
          isRoot = true ∧ fl.noTestDeps = false ∧
            (t ∈ pkg.testImports ∨ t ∈ pkg.xtestImports))) ∧
    (∀ (fl : Flags) (pkg : Pkg) (t : String),
        t ∈ importsOf fl pkg false ↔
          t ∈ pkg.imports ∧ (fl.std || !isStdlib t) = true) := by
  constructor
  · intro fl pkg isRoot t hni hg
    unfold importsOf
    by_cases hr : (isRoot && !fl.noTestDeps) = true
    · rw [if_pos hr]
      obtain ⟨hroot, hnt⟩ := Bool.and_eq_true_iff.mp hr
      rw [Bool.not_eq_true'] at hnt
      rw [mem_addPackages, mem_addPackages, mem_addPackages]
      simp [hni, hg, hroot, hnt]
    · rw [if_neg hr]
      rw [mem_addPackages]
      constructor
      · rintro (h0 | ⟨hi, _⟩)
        · exact absurd h0 (List.not_mem_nil t)
        · exact absurd hi hni
      · rintro ⟨hroot, hnt, _⟩
        rw [hroot, hnt] at hr
        simp at hr
  · intro fl pkg t
    unfold importsOf
    simp only [Bool.false_and, Bool.false_eq_true, if_false, if_neg]
    rw [mem_addPackages]
    simp

theorem testDeps_only_for_roots_witness :
    ("t.io/q" ∉ ["d.io/a"]) ∧
      (("t.io/q" ∈
          importsOf ⟨false, false, false, false, none, false⟩
            ⟨"r.io/p", "", ["d.io/a"], ["t.io/q"], [], [], [], [], []⟩ true) ↔
        true = true ∧ false = false ∧
          ("t.io/q" ∈ ["t.io/q"] ∨ ("t.io/q" : String) ∈ ([] : List String))) :=
  ⟨by decide,
    testDeps_only_for_roots.1 ⟨false, false, false, false, none, false⟩
      ⟨"r.io/p", "", ["d.io/a"], ["t.io/q"], [], [], [], [], []⟩ true "t.io/q"
      (by decide) (by decide)⟩

theorem mem_sortStrings (l : List String) (x : String) :
    x ∈ sortStrings l ↔ x ∈ l :=
  (List.perm_insertionSort StrLe l).mem_iff

theorem keysOf_filter_subset (p : String × List String → Bool) (g : Graph) :
    keysOf (List.filter p g) ⊆ keysOf g := by
  intro x hx
  unfold keysOf at *
  obtain ⟨kv, hkv, hfst⟩ := List.mem_map.mp hx
  exact List.mem_map.mpr ⟨kv, (List.mem_filter.mp hkv).1, hfst⟩

theorem not_mem_keysOf_deleteRoots (g : Graph) (rootPkgs : List String)
    (k : String) (hk : k ∈ rootPkgs) : k ∉ keysOf (deleteRoots g rootPkgs) := by
  intro hmem
  unfold deleteRoots keysOf at hmem
  obtain ⟨kv, hkv, hfst⟩ := List.mem_map.mp hmem
  have hp := (List.mem_filter.mp hkv).2
  rw [hfst] at hp
  rw [Bool.not_eq_eq_eq_not] at hp
  simp only [Bool.not_true] at hp
  exact absurd ((contains_iff _ _).mpr hk) (by rw [hp]; simp)

/-- C3: in list mode and from mode (files mode disabled) no root import
path is ever a key of the rendered output: every root is deleted from
the graph before rendering, and the -why filter only removes further
keys. -/
theorem roots_excluded_from_output :
    ∀ (fl : Flags) (allPkgs : Graph) (rootPkgs : List String) (k : String),
      fl.files = false → k ∈ rootPkgs →
      k ∉ resultKeys fl allPkgs rootPkgs := by
  intro fl allPkgs rootPkgs k hf hk hmem
  unfold resultKeys at hmem
  rw [hf] at hmem
  simp only [Bool.false_eq_true, if_false] at hmem
  rw [mem_sortStrings] at hmem
  have hdel : k ∈ keysOf (deleteRoots allPkgs rootPkgs) := by
    cases hwhy : fl.whyPat with
    | none => rw [hwhy] at hmem; exact hmem
    | some w =>
      rw [hwhy] at hmem
      exact keysOf_filter_subset _ _ hmem
  exact not_mem_keysOf_deleteRoots allPkgs rootPkgs k hk hdel

theorem roots_excluded_from_output_witness :
    (false = false ∧ "r.io/r" ∈ ["r.io/r"]) ∧
      "r.io/r" ∉ resultKeys ⟨false, false, false, true, none, false⟩
        [("r.io/r", []), ("d.io/a", ["r.io/r"])] ["r.io/r"] :=
  ⟨⟨rfl, by decide⟩,
    roots_excluded_from_output ⟨false, false, false, true, none, false⟩
      [("r.io/r", []), ("d.io/a", ["r.io/r"])] ["r.io/r"] "r.io/r" rfl (by decide)⟩


theorem char_toNat_inj (a b : Char) (h : a.toNat = b.toNat) : a = b :=
  Char.ext_iff.mpr (UInt32.ext h)

theorem charsLe_total : ∀ as bs : List Char,
    charsLe as bs = true ∨ charsLe bs as = true := by
  intro as
  induction as with
  | nil => intro bs; left; rfl
  | cons a as ih =>
    intro bs
    cases bs with
    | nil => right; rfl
    | cons b bs =>
      unfold charsLe
      rcases Nat.lt_trichotomy a.toNat b.toNat with h | h | h
      · left; rw [if_pos h]
      · rcases ih bs with h2 | h2
        · left; rw [if_neg (by omega), if_pos h]; exact h2
        · right; rw [if_neg (by omega), if_pos h.symm]; exact h2
      · right; rw [if_pos h]

theorem charsLe_trans : ∀ as bs cs : List Char,
    charsLe as bs = true → charsLe bs cs = true → charsLe as cs = true := by
  intro as
  induction as with
  | nil => intro bs cs _ _; rfl
  | cons a as ih =>
    intro bs cs hab hbc
    cases bs with
    | nil => simp [charsLe] at hab
    | cons b bs =>
      cases cs with
      | nil => simp [charsLe] at hbc
      | cons c cs =>
        unfold charsLe at hab hbc ⊢
        by_cases h1 : a.toNat < b.toNat
        · by_cases h2 : b.toNat < c.toNat
          · rw [if_pos (by omega)]
          · rw [if_neg h2] at hbc
            by_cases h3 : b.toNat = c.toNat
            · rw [if_pos (show a.toNat < c.toNat by omega)]
            · rw [if_neg h3] at hbc; exact absurd hbc (by simp)
        · rw [if_neg h1] at hab
          by_cases h1' : a.toNat = b.toNat
          · rw [if_pos h1'] at hab
            by_cases h2 : b.toNat < c.toNat
            · rw [if_pos (by omega)]
            · rw [if_neg h2] at hbc
              by_cases h3 : b.toNat = c.toNat
              · rw [if_pos h3] at hbc
                rw [if_neg (by omega), if_pos (by omega)]
                exact ih bs cs hab hbc
              · rw [if_neg h3] at hbc; exact absurd hbc (by simp)
          · rw [if_neg h1'] at hab; exact absurd hab (by simp)

theorem charsLe_antisymm : ∀ as bs : List Char,
    charsLe as bs = true → charsLe bs as = true → as = bs := by
  intro as
  induction as with
  | nil =>
    intro bs _ hba
    cases bs with
    | nil => rfl
    | cons b bs => simp [charsLe] at hba
  | cons a as ih =>
    intro bs hab hba
    cases bs with
    | nil => simp [charsLe] at hab
    | cons b bs =>
      unfold charsLe at hab hba
      by_cases h1 : a.toNat < b.toNat
      · rw [if_neg (by omega), if_neg (by omega)] at hba
        exact absurd hba (by simp)
      · by_cases h2 : a.toNat = b.toNat
        · rw [if_neg h1, if_pos h2] at hab
          rw [if_neg (by omega), if_pos (by omega)] at hba
          rw [char_toNat_inj a b h2, ih bs hab hba]
        · rw [if_neg h1, if_neg h2] at hab
          exact absurd hab (by simp)

theorem strLe_total (a b : String) : StrLe a b ∨ StrLe b a :=
  charsLe_total a.data b.data

theorem strLe_trans (a b c : String) (h1 : StrLe a b) (h2 : StrLe b c) : StrLe a c :=
  charsLe_trans a.data b.data c.data h1 h2

theorem strLe_antisymm (a b : String) (h1 : StrLe a b) (h2 : StrLe b a) : a = b := by
  have hd : a.data = b.data := charsLe_antisymm a.data b.data h1 h2
  cases a; cases b
  simp only at hd
  rw [hd]

instance : IsTotal String StrLe := ⟨strLe_total⟩

instance : IsTrans String StrLe := ⟨strLe_trans⟩

theorem uniqAux_sublist : ∀ (l : List String) (prev : String),
    (uniqAux l prev).Sublist l := by
  intro l
  induction l with
  | nil => intro prev; simp [uniqAux]
  | cons s rest ih =>
    intro prev
    unfold uniqAux
    by_cases h : s = prev
    · rw [if_pos h]
      exact (ih prev).cons s
    · rw [if_neg h]
      exact (ih s).cons₂ s

theorem uniqAux_ne : ∀ (l : List String) (prev : String),
    l.Sorted StrLe → (∀ x ∈ l, StrLe prev x) →
    ∀ y ∈ uniqAux l prev, y ≠ prev := by
  intro l
  induction l with
  | nil => intro prev _ _ y hy; simp [uniqAux] at hy
  | cons s rest ih =>
    intro prev hs hole y hy
    have hrest : rest.Sorted StrLe := (List.sorted_cons.mp hs).2
    have hsle : ∀ z ∈ rest, StrLe s z := (List.sorted_cons.mp hs).1
    unfold uniqAux at hy
    by_cases h : s = prev
    · rw [if_pos h] at hy
      refine ih prev hrest (fun z hz => h ▸ hsle z hz) y hy
    · rw [if_neg h] at hy
      rcases List.mem_cons.mp hy with rfl | hy'
      · exact h
      · have hyr : y ∈ rest := (uniqAux_sublist rest s).mem hy'
        intro hyp
        have h1 : StrLe s y := hsle y hyr
        have h2 : StrLe prev s := hole s (List.mem_cons_self s rest)
        rw [hyp] at h1
        exact h (strLe_antisymm s prev h1 h2)

theorem uniqAux_pairwise : ∀ (l : List String) (prev : String),
    l.Sorted StrLe → (uniqAux l prev).Pairwise fun a b => StrLe a b ∧ a ≠ b := by
  intro l
  induction l with
  | nil => intro prev _; simp [uniqAux]
  | cons s rest ih =>
    intro prev hs
    have hrest : rest.Sorted StrLe := (List.sorted_cons.mp hs).2
    have hsle : ∀ z ∈ rest, StrLe s z := (List.sorted_cons.mp hs).1
    unfold uniqAux
    by_cases h : s = prev
    · rw [if_pos h]
      exact ih prev hrest
    · rw [if_neg h]
      refine List.Pairwise.cons ?_ (ih s hrest)
      intro y hy
      have hyr : y ∈ rest := (uniqAux_sublist rest s).mem hy
      have hne : y ≠ s := uniqAux_ne rest s hrest hsle y hy
      exact ⟨hsle y hyr, fun hsy => hne hsy.symm⟩

theorem uniq_sorted_nodup (l : List String) (h : l.Sorted StrLe) :
    (uniq l).Sorted StrLe ∧ (uniq l).Nodup := by
  have hp := uniqAux_pairwise l "" h
  exact ⟨hp.imp And.left, hp.imp And.right⟩

/-- C9: every (module, importers) pair rendered in from mode carries an
importer list that is sorted ascending (in the bytewise string order of
sort.Strings) and duplicate-free, whatever duplicates the traversal
recorded: main sorts the entry and then deduplicates it with uniq. -/
theorem from_mode_sorted_nodup :
    ∀ (fl : Flags) (allPkgs : Graph) (rootPkgs : List String)
      (r : String) (imps : List String),
      (r, imps) ∈ renderFrom fl allPkgs rootPkgs →
      imps.Sorted StrLe ∧ imps.Nodup := by
  intro fl allPkgs rootPkgs r imps hmem
  unfold renderFrom at hmem
  obtain ⟨a, _, heq⟩ := List.mem_map.mp hmem
  unfold fromLine at heq
  have himps : imps = uniq (sortStrings (lookupG allPkgs a)) := (Prod.ext_iff.mp heq.symm).2
  rw [himps]
  exact uniq_sorted_nodup _ (List.sorted_insertionSort StrLe _)

theorem from_mode_sorted_nodup_witness :
    (("b.io/x", ["a.io/r", "a.io/s"]) ∈
        renderFrom ⟨false, false, false, true, none, false⟩
          [("b.io/x", ["a.io/s", "a.io/r", "a.io/s"])] []) ∧
      (["a.io/r", "a.io/s"] : List String).Sorted StrLe ∧
        (["a.io/r", "a.io/s"] : List String).Nodup :=
  ⟨by decide,
    from_mode_sorted_nodup ⟨false, false, false, true, none, false⟩
      [("b.io/x", ["a.io/s", "a.io/r", "a.io/s"])] [] "b.io/x"
      ["a.io/r", "a.io/s"] (by decide)⟩

/-- C10: in files mode a package whose descriptor fails to resolve at
render time contributes no output lines (the error of line 131 is
discarded) and the surrounding render loop is unaffected — the query
still renders every other key and does not abort; the same failing
resolver aborts graph building with an error (contrast of line 97 with
line 131). -/
theorem files_mode_ignores_render_failure :
    ∀ (env : Resolver) (fl : Flags) (allPkgs : Graph) (rootPkgs : List String)
      (r : String) (ks₁ ks₂ : List String) (g : Graph) (fuel : Nat),
      env r = none → fl.files = true →
      resultKeys fl allPkgs rootPkgs = ks₁ ++ r :: ks₂ →
      fileLines env fl rootPkgs r = [] ∧
        renderLines env fl allPkgs rootPkgs =
          (ks₁.map (linesFor env fl allPkgs rootPkgs)).flatten ++
            (ks₂.map (linesFor env fl allPkgs rootPkgs)).flatten ∧
        (r ≠ "C" →
          findImports env fl rootPkgs (fuel + 1) r g =
            Except.error (notFoundMsg r)) := by
  intro env fl allPkgs rootPkgs r ks₁ ks₂ g fuel henv hfiles hkeys
  have hfl : fileLines env fl rootPkgs r = [] := by
    unfold fileLines
    rw [henv]
  refine ⟨hfl, ?_, ?_⟩
  · unfold renderLines
    rw [hkeys]
    rw [List.map_append, List.map_cons, List.flatten_append, List.flatten_cons]
    have hlf : linesFor env fl allPkgs rootPkgs r = [] := by
      unfold linesFor
      rw [hfiles]
      simp [hfl]
    rw [hlf]
    simp
  · intro hc
    unfold findImports
    rw [if_neg hc, henv]

theorem files_mode_ignores_render_failure_witness :
    ((fun _ => none : Resolver) "p.io/a" = none ∧
        resultKeys ⟨false, false, false, false, none, true⟩ [("p.io/a", [])] [] =
          [] ++ "p.io/a" :: []) ∧
      renderLines (fun _ => none) ⟨false, false, false, false, none, true⟩
        [("p.io/a", [])] [] = [] ++ [] :=
  ⟨⟨rfl, by decide⟩,
    (files_mode_ignores_render_failure (fun _ => none)
      ⟨false, false, false, false, none, true⟩ [("p.io/a", [])] []
      "p.io/a" [] [] [] 0 rfl rfl (by decide)).2.1.trans (by simp)⟩

theorem starLoop_iff (rec : List Char → Bool) :
    ∀ s : List Char,
      starLoop rec s = true ↔ ∃ u v, s = u ++ v ∧ rec v = true := by
  intro s
  induction s with
  | nil =>
    unfold starLoop
    constructor
    · intro h; exact ⟨[], [], rfl, h⟩
    · rintro ⟨u, v, heq, hr⟩
      obtain ⟨rfl, rfl⟩ := List.append_eq_nil.mp heq.symm
      exact hr
  | cons c cs ih =>
    unfold starLoop
    rw [Bool.or_eq_true, ih]
    constructor
    · rintro (h | ⟨u, v, heq, hr⟩)
      · exact ⟨[], c :: cs, rfl, h⟩
      · exact ⟨c :: u, v, by rw [heq]; rfl, hr⟩
    · rintro ⟨u, v, heq, hr⟩
      cases u with
      | nil => left; rw [heq]; exact hr
      | cons x u' =>
        right
        have h1 := List.cons.inj heq
        exact ⟨u', v, h1.2, hr⟩

theorem tokMatch_iff :
    ∀ (ts : List Tok) (s : List Char), tokMatch ts s = true ↔ TokLang ts s := by
  intro ts
  induction ts with
  | nil =>
    intro s
    cases s with
    | nil => simp [tokMatch, TokLang]
    | cons d ds => simp [tokMatch, TokLang]
  | cons t ts ih =>
    intro s
    cases t with
    | lit c =>
      cases s with
      | nil =>
        unfold tokMatch TokLang
        simp
      | cons d ds =>
        unfold tokMatch TokLang
        rw [Bool.and_eq_true, beq_iff_eq, ih]
        constructor
        · rintro ⟨rfl, hm⟩
          exact ⟨ds, rfl, hm⟩
        · rintro ⟨s', heq, hl⟩
          obtain ⟨rfl, rfl⟩ := List.cons.inj heq
          exact ⟨rfl, hl⟩
    | anyStar =>
      unfold tokMatch TokLang
      rw [starLoop_iff]
      constructor
      · rintro ⟨u, v, heq, hr⟩
        exact ⟨u, v, heq, (ih v).mp hr⟩
      · rintro ⟨u, v, heq, hl⟩
        exact ⟨u, v, heq, (ih v).mpr hl⟩

theorem tokenize_cons_not_triple (c : Char) (l : List Char)
    (h : ¬(c = '.' ∧ l.take 2 = ['.', '.'])) :
    tokenize (c :: l) = .lit c :: tokenize l := by
  rw [tokenize.eq_def]
  split
  · rename_i rest heq
    injection heq with h1 h2
    exact absurd ⟨h1, by rw [h2]; rfl⟩ h
  · rename_i c' rest heq
    injection heq with h1 h2
    subst h1; subst h2; rfl
  · rename_i heq
    exact absurd heq (by simp)

theorem tokenize_append_slash (l₂ : List Char) :
    ∀ l₁, tokenize (l₁ ++ '/' :: l₂) = tokenize l₁ ++ Tok.lit '/' :: tokenize l₂ := by
  intro l₁
  induction l₁ using tokenize.induct with
  | case1 rest ih => simpa [tokenize] using ih
  | case2 c rest h ih =>
    have hnt₂ : ¬(c = '.' ∧ rest.take 2 = ['.', '.']) := by
      rintro ⟨hc, ht⟩
      rcases rest with _ | ⟨a, _ | ⟨b, r⟩⟩ <;> simp at ht
      exact h r hc (by rw [ht.1, ht.2])
    have hnt₁ : ¬(c = '.' ∧ (rest ++ '/' :: l₂).take 2 = ['.', '.']) := by
      rintro ⟨hc, ht⟩
      rcases rest with _ | ⟨a, _ | ⟨b, r⟩⟩ <;> simp at ht
      · exact hnt₂ ⟨hc, by rw [ht.1, ht.2]; rfl⟩
    have hcons : (c :: rest) ++ '/' :: l₂ = c :: (rest ++ '/' :: l₂) := rfl
    rw [hcons, tokenize_cons_not_triple c _ hnt₁, tokenize_cons_not_triple c rest hnt₂, ih]
    simp
  | case3 => simp [tokenize]

theorem endsWithSlashStar_append (ts : List Tok) :
    endsWithSlashStar (ts ++ [Tok.lit '/', Tok.anyStar]) = true := by
  unfold endsWithSlashStar
  rw [List.reverse_append]
  rfl

theorem dropLast_two_append (ts : List Tok) :
    (ts ++ [Tok.lit '/', Tok.anyStar]).dropLast.dropLast = ts := by
  have h2 : ts ++ [Tok.lit '/', Tok.anyStar] = (ts ++ [Tok.lit '/']) ++ [Tok.anyStar] := by
    simp
  rw [h2, List.dropLast_concat, List.dropLast_concat]

/-- C4: matchPattern compiles a pattern into an anchored exact match in
which each "..." token matches any substring and every other character
matches literally (first two parts, via the token language TokLang and
the tokenization of the pattern), and a pattern ending in "/..." also
accepts the name with the whole "/..." suffix removed (third part);
concretely "foo/..." accepts "foo" and "foo/bar" but rejects "foobar",
and "a...b" accepts "axyzb". -/
theorem matchPattern_spec :
    (∀ (ts : List Tok) (s : List Char), tokMatch ts s = true ↔ TokLang ts s) ∧
    (∀ (p s : String),
        matchPattern p s = true ↔
          (TokLang (tokenize p.data) s.data ∨
            (endsWithSlashStar (tokenize p.data) = true ∧
              TokLang ((tokenize p.data).dropLast.dropLast) s.data))) ∧
    (∀ (p s : String),
        matchPattern (p ++ "/...") s = true ↔
          (TokLang (tokenize p.data) s.data ∨
            TokLang (tokenize p.data ++ [Tok.lit '/', Tok.anyStar]) s.data)) ∧
    matchPattern "foo/..." "foo" = true ∧
    matchPattern "foo/..." "foo/bar" = true ∧
    matchPattern "foo/..." "foobar" = false ∧
    matchPattern "a...b" "axyzb" = true := by
  have hgen : ∀ (p s : String),
      matchPattern p s = true ↔
        (TokLang (tokenize p.data) s.data ∨
          (endsWithSlashStar (tokenize p.data) = true ∧
            TokLang ((tokenize p.data).dropLast.dropLast) s.data)) := by
    intro p s
    unfold matchPattern
    by_cases he : endsWithSlashStar (tokenize p.data) = true
    · rw [if_pos he, Bool.or_eq_true, tokMatch_iff, tokMatch_iff]
      constructor
      · rintro (h | h)
        · exact Or.inr ⟨he, h⟩
        · exact Or.inl h
      · rintro (h | ⟨_, h⟩)
        · exact Or.inr h
        · exact Or.inl h
    · rw [if_neg he, tokMatch_iff]
      constructor
      · exact Or.inl
      · rintro (h | ⟨he', _⟩)
        · exact h
        · exact absurd he' he
  refine ⟨tokMatch_iff, hgen, ?_, by decide, by decide, by decide, by decide⟩
  intro p s
  have hdata : (p ++ "/...").data = p.data ++ '/' :: ['.', '.', '.'] :=
    String.data_append p "/..."
  have htoks : tokenize (p ++ "/...").data =
      tokenize p.data ++ [Tok.lit '/', Tok.anyStar] := by
    rw [hdata, tokenize_append_slash]
    rfl
  rw [hgen (p ++ "/...") s, htoks, endsWithSlashStar_append, dropLast_two_append]
  constructor
  · rintro (h | ⟨_, h⟩)
    · exact Or.inr h
    · exact Or.inl h
  · rintro (h | h)
    · exact Or.inr ⟨rfl, h⟩
    · exact Or.inl h

theorem mem_foldr_insert (l : List String) (s : Finset String) (x : String) :
    x ∈ l.foldr insert s ↔ x ∈ l ∨ x ∈ s := by
  induction l with
  | nil => simp
  | cons a as ih => simp [List.foldr_cons, Finset.mem_insert, ih, List.mem_cons, or_assoc]

theorem mem_universeOf_key : ∀ (g : Graph) (k : String),
    k ∈ keysOf g → k ∈ universeOf g := by
  intro g
  induction g with
  | nil => intro k hk; simp [keysOf] at hk
  | cons kv rest ih =>
    intro k hk
    obtain ⟨k', vs⟩ := kv
    unfold universeOf
    rcases List.mem_cons.mp hk with heq | hmem
    · rw [heq]; exact Finset.mem_insert_self k' _
    · exact Finset.mem_insert_of_mem ((mem_foldr_insert _ _ _).mpr (Or.inr (ih k hmem)))

theorem mem_universeOf_lookup : ∀ (g : Graph) (a b : String),
    b ∈ lookupG g a → b ∈ universeOf g := by
  intro g
  induction g with
  | nil => intro a b hb; simp [lookupG] at hb
  | cons kv rest ih =>
    intro a b hb
    obtain ⟨k, vs⟩ := kv
    unfold lookupG at hb
    unfold universeOf
    by_cases hk : k = a
    · rw [if_pos hk] at hb
      exact Finset.mem_insert_of_mem ((mem_foldr_insert _ _ _).mpr (Or.inl hb))
    · rw [if_neg hk] at hb
      exact Finset.mem_insert_of_mem ((mem_foldr_insert _ _ _).mpr (Or.inr (ih a b hb)))

theorem RA_end_not_mem {g : Graph} {m : Finset String} {t p : String}
    (h : ReachAvoid g m t p) : p ∉ m := by
  cases h with
  | refl h => exact h
  | tail _ _ h => exact h

theorem RA_start_not_mem {g : Graph} {m : Finset String} {t p : String}
    (h : ReachAvoid g m t p) : t ∉ m := by
  induction h with
  | refl h => exact h
  | tail _ _ _ ih => exact ih

theorem RA_anti {g : Graph} {m m' : Finset String} (hsub : m ⊆ m') {t p : String}
    (h : ReachAvoid g m' t p) : ReachAvoid g m t p := by
  induction h with
  | refl h => exact .refl _ fun hm => h (hsub hm)
  | tail _ hq hnm ih => exact .tail ih hq fun hm => hnm (hsub hm)

theorem RA_mem_univ {g : Graph} {m : Finset String} {t p : String}
    (ht : t ∈ universeOf g) (h : ReachAvoid g m t p) : p ∈ universeOf g := by
  induction h with
  | refl => exact ht
  | tail _ hq _ _ => exact mem_universeOf_lookup g _ _ hq

theorem RA_step_up {g : Graph} {m : Finset String} {t q p : String}
    (hq : q ∈ lookupG g t) (ht : t ∉ m)
    (h : ReachAvoid g (insert t m) q p) : ReachAvoid g m t p := by
  induction h with
  | refl hr => exact .tail (.refl t ht) hq fun hm => hr (Finset.mem_insert_of_mem hm)
  | tail _ hq' hnm ih => exact .tail ih hq' fun hm => hnm (Finset.mem_insert_of_mem hm)

theorem RA_decompose {g : Graph} {m : Finset String} {t p : String}
    (h : ReachAvoid g m t p) :
    p = t ∨ ∃ q, q ∈ lookupG g t ∧ ReachAvoid g (insert t m) q p := by
  induction h with
  | refl => exact Or.inl rfl
  | tail hra hq hnm ih =>
    rename_i p' q'
    by_cases hqt : q' = t
    · exact Or.inl hqt
    · right
      rcases ih with rfl | ⟨r, hr, hra'⟩
      · exact ⟨q', hq, .refl q' fun hm => (Finset.mem_insert.mp hm).elim hqt hnm⟩
      · exact ⟨r, hr, .tail hra' hq fun hm => (Finset.mem_insert.mp hm).elim hqt hnm⟩

theorem RA_trunc {g : Graph} {m M : Finset String} {q0 : String}
    (hM : ∀ x, x ∈ M ↔ x ∈ m ∨ (x ∈ universeOf g ∧ ReachAvoid g m q0 x)) :
    ∀ {r p : String}, ReachAvoid g m r p → p ∈ M ∨ ReachAvoid g M r p := by
  intro r p h
  induction h with
  | refl hr =>
    by_cases hrM : r ∈ M
    · exact Or.inl hrM
    · exact Or.inr (.refl r hrM)
  | tail h hq hnm ih =>
    rename_i p' q'
    rcases ih with hpM | hra
    · rcases (hM p').mp hpM with hpm | ⟨hpu, hp0⟩
      · exact absurd hpm (RA_end_not_mem h)
      · exact Or.inl ((hM q').mpr (Or.inr
          ⟨mem_universeOf_lookup g _ _ hq, .tail hp0 hq hnm⟩))
    · by_cases hsM : q' ∈ M
      · exact Or.inl hsM
      · exact Or.inr (.tail hra hq hsM)

theorem markLoop_mono (rec : String → Finset String → Finset String)
    (hrec : ∀ (q : String) (m : Finset String), m ⊆ rec q m) :
    ∀ (l : List String) (m : Finset String), m ⊆ markLoop rec l m := by
  intro l
  induction l with
  | nil => intro m; exact Finset.Subset.refl m
  | cons q rest ih =>
    intro m
    exact Finset.Subset.trans (hrec q m) (ih (rec q m))

theorem markImporters_mono (g : Graph) :
    ∀ (fuel : Nat) (t : String) (m : Finset String), m ⊆ markImporters g fuel t m := by
  intro fuel
  induction fuel with
  | zero => intro t m; exact Finset.Subset.refl m
  | succ f ih =>
    intro t m
    show m ⊆ if t ∈ m then m else markLoop (markImporters g f) (lookupG g t) (insert t m)
    by_cases h : t ∈ m
    · rw [if_pos h]
    · rw [if_neg h]
      exact Finset.Subset.trans (Finset.subset_insert t m)
        (markLoop_mono (markImporters g f) (fun q m' => ih q m') _ _)

theorem markImporters_succ_eq (g : Graph) (f : Nat) (t : String) (m : Finset String) :
    markImporters g (f + 1) t m =
      if t ∈ m then m else markLoop (markImporters g f) (lookupG g t) (insert t m) := rfl

theorem mark_mem (g : Graph) : ∀ fuel : Nat,
    (∀ (m : Finset String) (t p : String),
        t ∈ universeOf g → (universeOf g \ m).card < fuel →
        (p ∈ markImporters g fuel t m ↔
          p ∈ m ∨ (p ∈ universeOf g ∧ ReachAvoid g m t p))) ∧
    (∀ (l : List String) (m0 : Finset String) (p : String),
        (∀ q ∈ l, q ∈ universeOf g) → (universeOf g \ m0).card < fuel →
        (p ∈ markLoop (markImporters g fuel) l m0 ↔
          p ∈ m0 ∨ (p ∈ universeOf g ∧ ∃ q ∈ l, ReachAvoid g m0 q p))) := by
  intro fuel
  induction fuel with
  | zero =>
    constructor
    · intro m t p _ hcard; exact absurd hcard (Nat.not_lt_zero _)
    · intro l m0 p _ hcard; exact absurd hcard (Nat.not_lt_zero _)
  | succ f ih =>
    have hP : ∀ (m : Finset String) (t p : String),
        t ∈ universeOf g → (universeOf g \ m).card < f + 1 →
        (p ∈ markImporters g (f + 1) t m ↔
          p ∈ m ∨ (p ∈ universeOf g ∧ ReachAvoid g m t p)) := by
      intro m t p htU hcard
      rw [markImporters_succ_eq]
      by_cases htm : t ∈ m
      · rw [if_pos htm]
        constructor
        · exact Or.inl
        · rintro (h | ⟨_, hra⟩)
          · exact h
          · exact absurd htm (RA_start_not_mem hra)
      · rw [if_neg htm]
        have htmU : t ∈ universeOf g \ m := Finset.mem_sdiff.mpr ⟨htU, htm⟩
        have hcard' : (universeOf g \ insert t m).card < f := by
          have heq : universeOf g \ insert t m = (universeOf g \ m).erase t := by
            ext x
            simp only [Finset.mem_sdiff, Finset.mem_erase, Finset.mem_insert]
            tauto
          have hpos : 0 < (universeOf g \ m).card := Finset.card_pos.mpr ⟨t, htmU⟩
          rw [heq, Finset.card_erase_of_mem htmU]
          omega
        rw [ih.2 (lookupG g t) (insert t m) p
          (fun q hq => mem_universeOf_lookup g t q hq) hcard']
        constructor
        · rintro (hpi | ⟨hpU, q, hq, hra⟩)
          · rcases Finset.mem_insert.mp hpi with rfl | hpm
            · exact Or.inr ⟨htU, .refl _ htm⟩
            · exact Or.inl hpm
          · exact Or.inr ⟨hpU, RA_step_up hq htm hra⟩
        · rintro (hpm | ⟨hpU, hra⟩)
          · exact Or.inl (Finset.mem_insert_of_mem hpm)
          · rcases RA_decompose hra with rfl | ⟨q, hq, hra'⟩
            · exact Or.inl (Finset.mem_insert_self _ _)
            · exact Or.inr ⟨hpU, q, hq, hra'⟩
    refine ⟨hP, ?_⟩
    intro l
    induction l with
    | nil => intro m0 p _ _; simp [markLoop]
    | cons q rest ihl =>
      intro m0 p hlU hcard
      have hqU : q ∈ universeOf g := hlU q (List.mem_cons_self q rest)
      have hMx : ∀ x, x ∈ markImporters g (f + 1) q m0 ↔
          x ∈ m0 ∨ (x ∈ universeOf g ∧ ReachAvoid g m0 q x) :=
        fun x => hP m0 q x hqU hcard
      have hm0M : m0 ⊆ markImporters g (f + 1) q m0 := markImporters_mono g (f + 1) q m0
      have hcM : (universeOf g \ markImporters g (f + 1) q m0).card < f + 1 :=
        lt_of_le_of_lt (Finset.card_le_card
          (Finset.sdiff_subset_sdiff (Finset.Subset.refl _) hm0M)) hcard
      show p ∈ markLoop (markImporters g (f + 1)) rest (markImporters g (f + 1) q m0) ↔ _
      rw [ihl (markImporters g (f + 1) q m0) p
        (fun r hr => hlU r (List.mem_cons_of_mem q hr)) hcM]
      constructor
      · rintro (hpM | ⟨hpU, r, hr, hra⟩)
        · rcases (hMx p).mp hpM with hpm | ⟨hpU, hra⟩
          · exact Or.inl hpm
          · exact Or.inr ⟨hpU, q, List.mem_cons_self q rest, hra⟩
        · exact Or.inr ⟨hpU, r, List.mem_cons_of_mem q hr, RA_anti hm0M hra⟩
      · rintro (hpm | ⟨hpU, q', hq', hra⟩)
        · exact Or.inl (hm0M hpm)
        · rcases List.mem_cons.mp hq' with rfl | hq'r
          · exact Or.inl ((hMx p).mpr (Or.inr ⟨hpU, hra⟩))
          · rcases RA_trunc hMx hra with hpM | hra'
            · exact Or.inl hpM
            · exact Or.inr ⟨hpU, q', hq'r, hra'⟩

theorem foldl_if_markLoop (g : Graph) (tgt : String → Bool) (F : Nat) :
    ∀ (l : List String) (m : Finset String),
      l.foldl (fun marked pkg => if tgt pkg then markImporters g F pkg marked else marked) m =
        markLoop (markImporters g F) (l.filter tgt) m := by
  intro l
  induction l with
  | nil => intro m; rfl
  | cons k rest ih =>
    intro m
    by_cases h : tgt k = true
    · have hf : (k :: rest).filter tgt = k :: rest.filter tgt := by
        simp [List.filter_cons, h]
      rw [List.foldl_cons, hf, if_pos h]
      exact ih (markImporters g F k m)
    · have hf : (k :: rest).filter tgt = rest.filter tgt := by
        simp [List.filter_cons, h]
      rw [List.foldl_cons, hf, if_neg h]
      exact ih m

theorem markAll_mem (g : Graph) (tgt : String → Bool) (p : String) :
    p ∈ markAll g tgt ↔
      p ∈ universeOf g ∧ ∃ k, k ∈ keysOf g ∧ tgt k = true ∧ ReachAvoid g ∅ k p := by
  unfold markAll
  rw [foldl_if_markLoop]
  have hl : ∀ q ∈ (keysOf g).filter tgt, q ∈ universeOf g :=
    fun q hq => mem_universeOf_key g q (List.mem_of_mem_filter hq)
  have hcard : (universeOf g \ ∅).card < (universeOf g).card + 1 := by
    rw [Finset.sdiff_empty]
    exact Nat.lt_succ_self _
  rw [(mark_mem g ((universeOf g).card + 1)).2 ((keysOf g).filter tgt) ∅ p hl hcard]
  simp only [Finset.not_mem_empty, false_or]
  constructor
  · rintro ⟨hpU, q, hq, hra⟩
    exact ⟨hpU, q, (List.mem_filter.mp hq).1, (List.mem_filter.mp hq).2, hra⟩
  · rintro ⟨hpU, k, hk, htgt, hra⟩
    exact ⟨hpU, k, List.mem_filter.mpr ⟨hk, htgt⟩, hra⟩

theorem RA_empty_iff (g : Graph) (t p : String) :
    ReachAvoid g ∅ t p ↔ Relation.ReflTransGen (importerEdge g) t p := by
  constructor
  · intro h
    induction h with
    | refl => exact Relation.ReflTransGen.refl
    | tail _ hq _ ih => exact Relation.ReflTransGen.tail ih hq
  · intro h
    induction h with
    | refl => exact .refl _ (Finset.not_mem_empty t)
    | tail _ hq ih => exact .tail ih hq (Finset.not_mem_empty _)

theorem lookupG_mem : ∀ (g : Graph) (a b : String),
    b ∈ lookupG g a → ∃ vs, (a, vs) ∈ g ∧ b ∈ vs := by
  intro g
  induction g with
  | nil => intro a b hb; simp [lookupG] at hb
  | cons kv rest ih =>
    intro a b hb
    obtain ⟨k, vs⟩ := kv
    unfold lookupG at hb
    by_cases hk : k = a
    · rw [if_pos hk] at hb
      exact ⟨vs, by rw [← hk]; exact List.mem_cons_self _ _, hb⟩
    · rw [if_neg hk] at hb
      obtain ⟨vs', hmem, hbv⟩ := ih a b hb
      exact ⟨vs', List.mem_cons_of_mem _ hmem, hbv⟩

theorem closed_reach_mem_keys (g : Graph) (hcl : ClosedG g = true)
    {t p : String} (ht : t ∈ keysOf g)
    (hr : Relation.ReflTransGen (importerEdge g) t p) : p ∈ keysOf g := by
  induction hr with
  | refl => exact ht
  | tail hstep hedge ih =>
    rename_i a b
    obtain ⟨vs, hpair, hbv⟩ := lookupG_mem g a b hedge
    have hall := (List.all_eq_true.mp hcl) (a, vs) hpair
    have hb := (List.all_eq_true.mp hall) b hbv
    exact (contains_iff _ _).mp hb

/-- C1: the seed loop of main over markImporters marks exactly the paths
reachable from a matching key along importer edges — that is, the
matching keys themselves together with everything that directly or
transitively imports one of them; on a closed graph (one whose recorded
importers are all keys, as built graphs are) every marked path is a key.
On the graph X imported by A, A imported by B, a target matching only X
marks exactly the set X, A, B; a target matching nothing marks nothing
and the subsequent filter yields the empty graph. -/
theorem markImporters_ancestor_closure :
    (∀ (g : Graph) (isTarget : String → Bool) (p : String),
        p ∈ markAll g isTarget ↔
          ∃ t, t ∈ keysOf g ∧ isTarget t = true ∧
            Relation.ReflTransGen (importerEdge g) t p) ∧
    (∀ (g : Graph) (isTarget : String → Bool) (p : String),
        ClosedG g = true → p ∈ markAll g isTarget → p ∈ keysOf g) ∧
    markAll [("X", ["A"]), ("A", ["B"]), ("B", [])] (fun s => s == "X") =
      ({"X", "A", "B"} : Finset String) ∧
    markAll [("X", ["A"]), ("A", ["B"]), ("B", [])] (fun _ => false) = ∅ ∧
    whyFilter [("X", ["A"]), ("A", ["B"]), ("B", [])] (fun _ => false) = [] := by
  have h1 : ∀ (g : Graph) (isTarget : String → Bool) (p : String),
      p ∈ markAll g isTarget ↔
        ∃ t, t ∈ keysOf g ∧ isTarget t = true ∧
          Relation.ReflTransGen (importerEdge g) t p := by
    intro g isTarget p
    rw [markAll_mem]
    constructor
    · rintro ⟨_, k, hk, htgt, hra⟩
      exact ⟨k, hk, htgt, (RA_empty_iff g k p).mp hra⟩
    · rintro ⟨k, hk, htgt, hreach⟩
      have hra := (RA_empty_iff g k p).mpr hreach
      exact ⟨RA_mem_univ (mem_universeOf_key g k hk) hra, k, hk, htgt, hra⟩
  refine ⟨h1, ?_, by decide, by decide, by decide⟩
  intro g isTarget p hcl hp
  obtain ⟨t, ht, _, hreach⟩ := (h1 g isTarget p).mp hp
  exact closed_reach_mem_keys g hcl ht hreach

theorem markImporters_ancestor_closure_witness :
    (ClosedG [("X", ["A"]), ("A", ["B"]), ("B", [])] = true ∧
        "B" ∈ markAll [("X", ["A"]), ("A", ["B"]), ("B", [])] (fun s => s == "X")) ∧
      "B" ∈ keysOf [("X", ["A"]), ("A", ["B"]), ("B", [])] :=
  ⟨⟨by decide, by decide⟩,
    markImporters_ancestor_closure.2.1 [("X", ["A"]), ("A", ["B"]), ("B", [])]
      (fun s => s == "X") "B" (by decide) (by decide)⟩

theorem foldl_if_none {α : Type} (F : String → α → α) (tgt : String → Bool) :
    ∀ (l : List String) (m : α), (∀ k ∈ l, tgt k = false) →
      l.foldl (fun m k => if tgt k then F k m else m) m = m := by
  intro l
  induction l with
  | nil => intro m _; rfl
  | cons k rest ih =>
    intro m hl
    rw [List.foldl_cons, if_neg (by rw [hl k (List.mem_cons_self k rest)]; simp)]
    exact ih m fun r hr => hl r (List.mem_cons_of_mem k hr)

theorem markAll_empty_of_no_target (g : Graph) (tgt : String → Bool)
    (h : ∀ k ∈ keysOf g, tgt k = false) : markAll g tgt = ∅ := by
  unfold markAll
  exact foldl_if_none _ tgt (keysOf g) ∅ h

theorem whyFilter_empty_of_no_target (g : Graph) (tgt : String → Bool)
    (h : ∀ k ∈ keysOf g, tgt k = false) : whyFilter g tgt = [] := by
  unfold whyFilter
  rw [List.filter_eq_nil_iff]
  intro kv _
  rw [markAll_empty_of_no_target g tgt h]
  simp

/-- C5 counterexample: with graph S importing A, A importing R, roots R
and S, and a target matching exactly the root R, the code deletes the
roots before seeding the ancestor marking, so R no longer seeds the
closure and the output is empty; the order the spec describes (filter
first, then delete roots) would have kept A.  The two pipeline orders
disagree on this input. -/
theorem why_order_counterexample :
    resultKeys ⟨false, true, true, true, some "R", false⟩
        [("A", ["S"]), ("R", ["A"]), ("S", [])] ["R", "S"] = [] ∧
      specResultKeys ⟨false, true, true, true, some "R", false⟩
        [("A", ["S"]), ("R", ["A"]), ("S", [])] ["R", "S"] = ["A"] ∧
      resultKeys ⟨false, true, true, true, some "R", false⟩
          [("A", ["S"]), ("R", ["A"]), ("S", [])] ["R", "S"] ≠
        specResultKeys ⟨false, true, true, true, some "R", false⟩
          [("A", ["S"]), ("R", ["A"]), ("S", [])] ["R", "S"] := by
  refine ⟨by decide, by decide, ?_⟩
  intro h
  rw [show resultKeys ⟨false, true, true, true, some "R", false⟩
      [("A", ["S"]), ("R", ["A"]), ("S", [])] ["R", "S"] = [] from by decide,
    show specResultKeys ⟨false, true, true, true, some "R", false⟩
      [("A", ["S"]), ("R", ["A"]), ("S", [])] ["R", "S"] = ["A"] from by decide] at h
  cases h

/-- C5 amended: root modules are deleted from the graph before the
ancestor-closure filtering, so a root matching the target predicate does
not seed the closure; in particular whenever every path matching the
-why pattern is a root, the rendered key set is empty. -/
theorem why_filter_after_root_deletion :
    ∀ (fl : Flags) (allPkgs : Graph) (rootPkgs : List String) (w : String),
      fl.files = false → fl.whyPat = some w →
      (∀ k, matchPattern w k = true → k ∈ rootPkgs) →
      resultKeys fl allPkgs rootPkgs = [] := by
  intro fl allPkgs rootPkgs w hf hw hroots
  unfold resultKeys
  rw [hf, hw]
  simp only [Bool.false_eq_true, if_false]
  have hno : ∀ k ∈ keysOf (deleteRoots allPkgs rootPkgs), matchPattern w k = false := by
    intro k hk
    by_cases hm : matchPattern w k = true
    · exact absurd hk (not_mem_keysOf_deleteRoots allPkgs rootPkgs k (hroots k hm))
    · exact Bool.not_eq_true _ ▸ hm
  rw [whyFilter_empty_of_no_target _ _ hno]
  rfl

theorem why_filter_after_root_deletion_witness :
    resultKeys ⟨false, true, true, true, some "R", false⟩
      [("A", ["S"]), ("R", ["A"]), ("S", [])] ["R", "S"] = [] := by
  refine why_filter_after_root_deletion ⟨false, true, true, true, some "R", false⟩
    [("A", ["S"]), ("R", ["A"]), ("S", [])] ["R", "S"] "R" rfl rfl ?_
  intro k hk
  have hk' : tokMatch [Tok.lit 'R'] k.data = true := hk
  have hl := (tokMatch_iff [Tok.lit 'R'] k.data).mp hk'
  obtain ⟨s', hs, hnil⟩ := hl
  have hs' : s' = [] := hnil
  rw [hs'] at hs
  rcases k with ⟨kd⟩
  simp only at hs
  rw [hs]
  decide

theorem keysOf_setG : ∀ (g : Graph) (k : String) (v : List String) (x : String),
    x ∈ keysOf (setG g k v) → x ∈ keysOf g ∨ x = k := by
  intro g
  induction g with
  | nil =>
    intro k v x hx
    unfold setG keysOf at hx
    simp at hx
    exact Or.inr hx
  | cons kv rest ih =>
    intro k v x hx
    obtain ⟨k', w⟩ := kv
    unfold setG at hx
    by_cases hk : k' = k
    · rw [if_pos hk] at hx
      unfold keysOf at hx ⊢
      simp only [List.map_cons, List.mem_cons] at hx ⊢
      rcases hx with h1 | h2
      · exact Or.inl (Or.inl h1)
      · exact Or.inl (Or.inr h2)
    · rw [if_neg hk] at hx
      unfold keysOf at hx ⊢
      simp only [List.map_cons, List.mem_cons] at hx ⊢
      rcases hx with h1 | h2
      · exact Or.inl (Or.inl h1)
      · rcases ih k v x h2 with h3 | h3
        · exact Or.inl (Or.inr h3)
        · exact Or.inr h3

theorem loopImports_no_C (fl : Flags) (hstd : fl.std = false)
    (rec : String → Graph → Except String Graph)
    (hrec : ∀ (name : String) (h g' : Graph), "C" ∉ keysOf h →
      rec name h = Except.ok g' → "C" ∉ keysOf g') :
    ∀ (l : List String) (cur : String) (h g' : Graph), "C" ∉ keysOf h →
      loopImports fl rec cur l h = Except.ok g' → "C" ∉ keysOf g' := by
  intro l
  induction l with
  | nil =>
    intro cur h g' hinv heq
    unfold loopImports at heq
    cases heq
    exact hinv
  | cons name rest ihl =>
    intro cur h g' hinv heq
    unfold loopImports at heq
    cases hstep : importStep fl rec cur h name with
    | error e => rw [hstep] at heq; cases heq
    | ok g1 =>
      rw [hstep] at heq
      have hinv1 : "C" ∉ keysOf g1 := by
        unfold importStep at hstep
        split at hstep
        · cases hstep
          exact hinv
        · rename_i hskip
          have hnc : name ≠ "C" := by
            intro hnc'
            apply hskip
            rw [hnc', hstd]
            rfl
          have hinvset : "C" ∉ keysOf (setG h name (lookupG h name ++ [cur])) := by
            intro hmem
            rcases keysOf_setG h name _ "C" hmem with hmem' | heqc
            · exact hinv hmem'
            · exact hnc heqc.symm
          split at hstep
          · exact hrec name _ g1 hinvset hstep
          · cases hstep
            exact hinvset
      exact ihl cur g1 g' hinv1 heq

theorem findImports_no_C (env : Resolver) (fl : Flags) (rootPkgs : List String)
    (hstd : fl.std = false)
    (henv : ∀ (p : String) (pk : Pkg), env p = some pk → pk.importPath ≠ "C") :
    ∀ (fuel : Nat) (name : String) (h g' : Graph), "C" ∉ keysOf h →
      findImports env fl rootPkgs fuel name h = Except.ok g' → "C" ∉ keysOf g' := by
  intro fuel
  induction fuel with
  | zero =>
    intro name h g' _ heq
    unfold findImports at heq
    cases heq
  | succ f ih =>
    intro name h g' hinv heq
    unfold findImports at heq
    by_cases hc : name = "C"
    · rw [if_pos hc] at heq
      cases heq
      exact hinv
    · rw [if_neg hc] at heq
      cases henv' : env name with
      | none => rw [henv'] at heq; cases heq
      | some pkg =>
        rw [henv'] at heq
        have hpkC : pkg.importPath ≠ "C" := henv name pkg henv'
        have hinv0 : "C" ∉ keysOf
            (setG h pkg.importPath (lookupG h pkg.importPath)) := by
          intro hmem
          rcases keysOf_setG h pkg.importPath _ "C" hmem with hmem' | heqc
          · exact hinv hmem'
          · exact hpkC heqc.symm
        exact loopImports_no_C fl hstd (findImports env fl rootPkgs f) ih
          _ _ _ _ hinv0 heq

theorem buildGraph_no_C (env : Resolver) (fl : Flags) (rootPkgs : List String)
    (hstd : fl.std = false)
    (henv : ∀ (p : String) (pk : Pkg), env p = some pk → pk.importPath ≠ "C") :
    ∀ (pkgs : List String) (fuel : Nat) (h gOut : Graph), "C" ∉ keysOf h →
      pkgs.foldlM (fun g pkg => findImports env fl rootPkgs fuel pkg g) h =
        Except.ok gOut →
      "C" ∉ keysOf gOut := by
  intro pkgs
  induction pkgs with
  | nil =>
    intro fuel h gOut hinv heq
    simp only [List.foldlM] at heq
    cases heq
    exact hinv
  | cons p rest ih =>
    intro fuel h gOut hinv heq
    rw [show List.foldlM (fun g pkg => findImports env fl rootPkgs fuel pkg g) h
        (p :: rest) =
      (findImports env fl rootPkgs fuel p h >>= fun h' =>
        List.foldlM (fun g pkg => findImports env fl rootPkgs fuel pkg g) h' rest)
      from by simp [List.foldlM]] at heq
    cases hfi : findImports env fl rootPkgs fuel p h with
    | error e => rw [hfi] at heq; cases heq
    | ok h' =>
      rw [hfi] at heq
      exact ih fuel h' gOut
        (findImports_no_C env fl rootPkgs hstd henv fuel p h h' hinv hfi) heq

/-- C6 counterexample: with -stdlib enabled and a package R whose import
list contains the cgo pseudo-import "C", the built graph does record "C"
as a key (with importer R) — it is only the recursive resolution of "C"
that is skipped, not its recording.  This refutes the claim for the
includeStdlib = true configuration. -/
theorem c_recorded_with_stdlib_counterexample :
    buildGraph envC flC ["R"] 5 ["R"] = Except.ok [("R", []), ("C", ["R"])] ∧
      "C" ∈ keysOf [("R", []), ("C", ["R"])] := ⟨rfl, by decide⟩

/-- C6 amended: the pseudo-import "C" is never resolved or recursed into
(findImports returns its graph unchanged on "C", whatever the resolver
says), and with includeStdlib disabled it is filtered out like any other
stdlib path, so it never appears as a key of a graph built by a resolver
that never itself reports "C" as an import path; with includeStdlib
enabled it can appear as a key (previous theorem). -/
theorem c_sentinel_amended :
    (∀ (env : Resolver) (fl : Flags) (rootPkgs : List String) (fuel : Nat)
        (g : Graph),
        findImports env fl rootPkgs (fuel + 1) "C" g = Except.ok g) ∧
    (∀ (env : Resolver) (fl : Flags) (rootPkgs : List String)
        (pkgs : List String) (fuel : Nat) (gOut : Graph),
        fl.std = false →
        (∀ (p : String) (pk : Pkg), env p = some pk → pk.importPath ≠ "C") →
        buildGraph env fl rootPkgs fuel pkgs = Except.ok gOut →
        "C" ∉ keysOf gOut) := by
  constructor
  · intro env fl rootPkgs fuel g
    unfold findImports
    rw [if_pos rfl]
  · intro env fl rootPkgs pkgs fuel gOut hstd henv heq
    exact buildGraph_no_C env fl rootPkgs hstd henv pkgs fuel [] gOut
      (by decide) heq

theorem c_sentinel_amended_witness :
    (false = false ∧
        buildGraph env7 ⟨false, true, false, false, none, false⟩ ["R"] 5 ["R"] =
          Except.ok [("R", [])]) ∧
      "C" ∉ keysOf [("R", [])] :=
  ⟨⟨rfl, rfl⟩,
    c_sentinel_amended.2 env7 ⟨false, true, false, false, none, false⟩ ["R"] ["R"] 5
      [("R", [])] rfl
      (by
        intro p pk hp
        unfold env7 at hp
        split at hp
        · cases hp; decide
        · split at hp
          · cases hp; decide
          · split at hp
            · cases hp; decide
            · cases hp)
      rfl⟩

/-- C7 counterexample: the visited test of line 201 is
`allPkgs[name] != nil`, so a path whose entry is empty does NOT count as
processed.  Concretely, with roots R and S, R importing A and S
importing R, the root R already has an (empty) entry when S's import of
R is encountered; R is then re-resolved and its imports re-enumerated,
which appends R a second time to A's importer list.  Under the claim
A's entry would have stayed ["R"]. -/
theorem empty_entry_reprocessed_counterexample :
    findImports env7 flC ["R", "S"] 10 "S" [("R", []), ("A", ["R"])] =
        Except.ok [("R", ["S"]), ("A", ["R", "R"]), ("S", [])] ∧
      lookupG [("R", ["S"]), ("A", ["R", "R"]), ("S", [])] "A" = ["R", "R"] ∧
      lookupG [("R", ["S"]), ("A", ["R", "R"]), ("S", [])] "A" ≠ ["R"] :=
  ⟨rfl, rfl, by decide⟩

/-- C7 amended: a module path counts as already processed only once its
importer entry is non-empty; the traversal step for such a path merely
appends the current importer (after the stdlib gate) and never invokes
the recursive resolution — the step is the same whatever recursive
function is supplied.  A path whose entry is empty is not protected and
is reprocessed when encountered again (previous theorem). -/
theorem nonempty_entry_not_reprocessed :
    ∀ (fl : Flags) (rec rec' : String → Graph → Except String Graph)
      (cur : String) (g : Graph) (name : String),
      lookupG g name ≠ [] →
      importStep fl rec cur g name =
          Except.ok (if !fl.std && isStdlib name then g
            else setG g name (lookupG g name ++ [cur])) ∧
        importStep fl rec cur g name = importStep fl rec' cur g name := by
  intro fl rec rec' cur g name hne
  have hemp : (lookupG g name).isEmpty = false := by
    cases hl : lookupG g name with
    | nil => exact absurd hl hne
    | cons a l => rfl
  have hstep : ∀ r : String → Graph → Except String Graph,
      importStep fl r cur g name =
        Except.ok (if !fl.std && isStdlib name then g
          else setG g name (lookupG g name ++ [cur])) := by
    intro r
    unfold importStep
    by_cases hskip : (!fl.std && isStdlib name) = true
    · rw [if_pos hskip, if_pos hskip]
    · rw [if_neg hskip, if_neg hskip,
        if_neg (by rw [hemp]; simp)]
  exact ⟨hstep rec, (hstep rec).trans (hstep rec').symm⟩

theorem nonempty_entry_not_reprocessed_witness :
    lookupG [("R", ["Q"])] "R" ≠ [] ∧
      importStep flC (fun _ _ => Except.error "boom") "S" [("R", ["Q"])] "R" =
        Except.ok (if !flC.std && isStdlib "R" then [("R", ["Q"])]
          else setG [("R", ["Q"])] "R" (lookupG [("R", ["Q"])] "R" ++ ["S"])) :=
  ⟨by decide,
    (nonempty_entry_not_reprocessed flC (fun _ _ => Except.error "boom")
      (fun _ _ => Except.ok []) "S" [("R", ["Q"])] "R" (by decide)).1⟩

theorem foldlM_append_error {α β : Type} (f : β → α → Except String β)
    (x : α) (l₂ : List α) (g : β) (e : String) (h2 : f g x = Except.error e) :
    ∀ (l₁ : List α) (b : β), l₁.foldlM f b = Except.ok g →
      (l₁ ++ x :: l₂).foldlM f b = Except.error e := by
  intro l₁
  induction l₁ with
  | nil =>
    intro b h1
    injection h1 with hbg
    rw [show ([] ++ x :: l₂ : List α) = x :: l₂ from rfl,
      show List.foldlM f b (x :: l₂) =
        (f b x >>= fun b' => List.foldlM f b' l₂) from by simp [List.foldlM],
      hbg, h2]
    rfl
  | cons a l₁ ih =>
    intro b h1
    rw [show List.foldlM f b (a :: l₁) =
      (f b a >>= fun b' => List.foldlM f b' l₁) from by simp [List.foldlM]] at h1
    rw [show ((a :: l₁) ++ x :: l₂ : List α) = a :: (l₁ ++ x :: l₂) from rfl,
      show List.foldlM f b (a :: (l₁ ++ x :: l₂)) =
        (f b a >>= fun b' => List.foldlM f b' (l₁ ++ x :: l₂)) from by
          simp [List.foldlM]]
    cases hfa : f b a with
    | error e' => rw [hfa] at h1; cases h1
    | ok b' =>
      rw [hfa] at h1
      exact ih b' h1

theorem resolveRoots_error (env : Resolver) :
    ∀ pkgs : List String, (∃ pkg ∈ pkgs, env pkg = none) →
      ∃ q, env q = none ∧ q ∈ pkgs ∧
        resolveRoots env pkgs = Except.error (notFoundMsg q) := by
  intro pkgs
  induction pkgs with
  | nil => rintro ⟨pkg, hmem, _⟩; simp at hmem
  | cons p rest ih =>
    rintro ⟨pkg, hmem, hnone⟩
    by_cases hp : env p = none
    · refine ⟨p, hp, List.mem_cons_self p rest, ?_⟩
      unfold resolveRoots
      rw [hp]
    · have hmem' : pkg ∈ rest := by
        rcases List.mem_cons.mp hmem with rfl | h
        · exact absurd hnone hp
        · exact h
      obtain ⟨q, hq, hqm, herr⟩ := ih ⟨pkg, hmem', hnone⟩
      refine ⟨q, hq, List.mem_cons_of_mem p hqm, ?_⟩
      unfold resolveRoots
      cases hep : env p with
      | none => exact absurd hep hp
      | some pk =>
        rw [herr]

/-- C8: resolution failure is fail-fast everywhere.  A failing path hit
during traversal makes findImports return the error immediately (first
part); the error text always carries the offending path (second part); a
failing root aborts root resolution with that path in the error (third
part); once any findImports call in the build loop fails, the whole
build returns that error and the remaining packages are not processed
(fourth part); and main propagates either failure as its overall result,
so no rendered output accompanies an error (fifth part — the result is
the error itself, never a line list). -/
theorem resolution_failure_fail_fast :
    (∀ (env : Resolver) (fl : Flags) (rootPkgs : List String) (fuel : Nat)
        (name : String) (g : Graph),
        name ≠ "C" → env name = none →
        findImports env fl rootPkgs (fuel + 1) name g =
          Except.error (notFoundMsg name)) ∧
    (∀ name : String, ∃ a b : String, notFoundMsg name = a ++ name ++ b) ∧
    (∀ (env : Resolver) (pkgs : List String),
        (∃ pkg ∈ pkgs, env pkg = none) →
        ∃ q, env q = none ∧ q ∈ pkgs ∧
          resolveRoots env pkgs = Except.error (notFoundMsg q)) ∧
    (∀ (env : Resolver) (fl : Flags) (rootPkgs : List String) (fuel : Nat)
        (ps₁ : List String) (p : String) (ps₂ : List String) (g : Graph)
        (e : String),
        buildGraph env fl rootPkgs fuel ps₁ = Except.ok g →
        findImports env fl rootPkgs fuel p g = Except.error e →
        buildGraph env fl rootPkgs fuel (ps₁ ++ p :: ps₂) = Except.error e) ∧
    (∀ (env : Resolver) (fl : Flags) (pkgs0 : List String) (fuel : Nat)
        (e : String),
        (resolveRoots env (if pkgs0.isEmpty then ["."] else pkgs0) =
            Except.error e →
          mainRun env fl pkgs0 fuel = Except.error e) ∧
        (∀ rootPkgs : List String,
          resolveRoots env (if pkgs0.isEmpty then ["."] else pkgs0) =
              Except.ok rootPkgs →
          buildGraph env (applyWhy fl) rootPkgs fuel
              (if pkgs0.isEmpty then ["."] else pkgs0) = Except.error e →
          mainRun env fl pkgs0 fuel = Except.error e)) := by
  refine ⟨?_, ?_, resolveRoots_error, ?_, ?_⟩
  · intro env fl rootPkgs fuel name g hc henv
    unfold findImports
    rw [if_neg hc, henv]
  · intro name
    exact ⟨"cannot find \"", "\"", rfl⟩
  · intro env fl rootPkgs fuel ps₁ p ps₂ g e h1 h2
    unfold buildGraph at h1 ⊢
    exact foldlM_append_error _ p ps₂ g e h2 ps₁ [] h1
  · intro env fl pkgs0 fuel e
    constructor
    · intro h
      show (match resolveRoots env (if pkgs0.isEmpty then ["."] else pkgs0) with
        | Except.error e' => Except.error e'
        | Except.ok rootPkgs =>
          match buildGraph env (applyWhy fl) rootPkgs fuel
              (if pkgs0.isEmpty then ["."] else pkgs0) with
          | Except.error e' => Except.error e'
          | Except.ok allPkgs =>
            Except.ok (renderLines env (applyWhy fl) allPkgs rootPkgs)) =
        Except.error e
      rw [h]
    · intro rootPkgs hroots hbuild
      have hm : mainRun env fl pkgs0 fuel =
          (match buildGraph env (applyWhy fl) rootPkgs fuel
              (if pkgs0.isEmpty then ["."] else pkgs0) with
            | Except.error e' => Except.error e'
            | Except.ok allPkgs =>
              Except.ok (renderLines env (applyWhy fl) allPkgs rootPkgs)) := by
        show (match resolveRoots env (if pkgs0.isEmpty then ["."] else pkgs0) with
          | Except.error e' => Except.error e'
          | Except.ok rootPkgs =>
            match buildGraph env (applyWhy fl) rootPkgs fuel
                (if pkgs0.isEmpty then ["."] else pkgs0) with
            | Except.error e' => Except.error e'
            | Except.ok allPkgs =>
              Except.ok (renderLines env (applyWhy fl) allPkgs rootPkgs)) = _
        rw [hroots]
      rw [hm, hbuild]

theorem resolution_failure_fail_fast_witness :
    ("q.io/x" ≠ "C" ∧ (fun _ => none : Resolver) "q.io/x" = none) ∧
      findImports (fun _ => none) flC [] 1 "q.io/x" [] =
        Except.error (notFoundMsg "q.io/x") :=
  ⟨⟨by decide, rfl⟩,
    resolution_failure_fail_fast.1 (fun _ => none) flC [] 0 "q.io/x" []
      (by decide) rfl⟩
